import Mathlib

/-!
Verification of the propositional-formula subsystem of the repository
(`src/book/chapter01/src/propositions/syntax.py`), shallowly embedded in Lean.

Python strings are embedded as `List Char` (`Str`).  Python functions that can
raise an exception are embedded as `Option`-valued functions (`none` = the call
raises).  Python's `str.isdigit` is modelled by `Char.isDigit` (the decimal
digits `'0'..'9'`, the only characters relevant to this grammar).
-/

abbrev Str := List Char

/-- Embedding of `is_variable` from syntax.py.  The Python body evaluates
`string[0]`, which raises `IndexError` on the empty string, hence the
`Option Bool` result: `none` models that exception.  On a non-empty string the
body is `string[0] >= 'p' and string[0] <= 'z' and (len(string) == 1 or
string[1:].isdigit())`. -/
def is_variable : Str → Option Bool
  | [] => none
  | c :: ds =>
    some ((decide ('p' ≤ c) && decide (c ≤ 'z')) &&
          (ds.isEmpty || ds.all Char.isDigit))

/-- Total Bool view of `is_variable`, usable at the call sites where the Python
code guards the argument to be non-empty (so the `IndexError` branch cannot be
reached there). -/
def isVarB (s : Str) : Bool := (is_variable s).getD false

/-- Embedding of `is_constant` from syntax.py: `string == 'T' or string == 'F'`. -/
def is_constant (s : Str) : Bool := s == ['T'] || s == ['F']

/-- Embedding of `is_unary` from syntax.py: `string == '~'`. -/
def is_unary (s : Str) : Bool := s == ['~']

/-- Embedding of `is_binary` from syntax.py:
`string == '&' or string == '|' or string == '->'`. -/
def is_binary (s : Str) : Bool := s == ['&'] || s == ['|'] || s == ['-', '>']

/-- Embedding of `split_str` from syntax.py, second phase: after tentatively
taking a one- or two-character token, if that token is a variable letter the
tokenizer greedily appends the run of decimal digits at the head of the rest
(`ds = takewhile(isdigit, rest); m = len(ds); (prefix + rest[:m], rest[m:])`). -/
def split_var_extend (tok rest : Str) : Str × Str :=
  if tok ≠ [] ∧ (is_variable tok).getD false = true then
    (tok ++ rest.take (rest.takeWhile Char.isDigit).length,
     rest.drop (rest.takeWhile Char.isDigit).length)
  else (tok, rest)

/-- Embedding of `split_str` from syntax.py, first phase: a leading `'-'` takes
a two-character token (`string[:2], string[2:]`), anything else a
one-character token (`string[:1], string[1:]`); then the variable extension. -/
def split_str (s : Str) : Str × Str :=
  if s.head? = some '-' then split_var_extend (s.take 2) (s.drop 2)
  else split_var_extend (s.take 1) (s.drop 1)

/-- Embedding of the `Formula` class of syntax.py.  The constructor's
assertions allow exactly three shapes: a leaf (constant or variable root, no
operands), a unary node (root with one operand `first`), and a binary node
(root with operands `first` and `second`); the inductive type has one
constructor per shape, each carrying the `root` string. -/
inductive Formula : Type where
  | leaf : Str → Formula
  | unary : Str → Formula → Formula
  | binary : Str → Formula → Formula → Formula
deriving DecidableEq

/-- Embedding of `Formula.__init__` from syntax.py: given the root and the two
optional operands, either build the formula or fail (`none` models both a
failed `assert` and the `IndexError` that `is_variable('')` raises when the
root is the empty string — `is_variable(root)` is the first test evaluated). -/
def mkFormula (root : Str) (first second : Option Formula) : Option Formula :=
  match is_variable root with
  | none => none
  | some vb =>
    if vb || is_constant root then
      match first, second with
      | none, none => some (Formula.leaf root)
      | _, _ => none
    else if is_unary root then
      match first, second with
      | some f, none => some (Formula.unary root f)
      | _, _ => none
    else if is_binary root then
      match first, second with
      | some f, some s => some (Formula.binary root f s)
      | _, _ => none
    else none

/-- Embedding of `Formula.__repr__` from syntax.py: a constant or variable
prints as its root, a unary node as root followed by the operand, a binary
node as `(first root second)` without spaces.  The Python body dispatches on
the token class of the root, which on every constructible `Formula` (the
constructor enforces the arity invariant) coincides with the node shape used
here. -/
def Formula.repr : Formula → Str
  | .leaf r => r
  | .unary r a => r ++ a.repr
  | .binary r a b => ['('] ++ a.repr ++ r ++ b.repr ++ [')']

/-- Embedding of `Formula.__eq__` from syntax.py:
`isinstance(other, Formula) and str(self) == str(other)` (the `isinstance`
test is rendered by the argument type). -/
def formulaEq (f g : Formula) : Bool := f.repr == g.repr

/-- Model of Python's builtin `hash` restricted to strings: some fixed
function of the string.  `Formula.__hash__` is `hash(str(self))`, so the only
property the code relies on — equal serializations hash equally — holds for
any such function; a concrete polynomial hash keeps the model executable. -/
def strHash (s : Str) : Nat := s.foldl (fun a c => a * 31 + c.toNat) 7

/-- Embedding of `Formula.__hash__` from syntax.py: `hash(str(self))`. -/
def formulaHash (f : Formula) : Nat := strHash f.repr

/-- Well-formedness: the invariant `Formula.__init__` enforces on every
constructible value — a leaf's root is a constant or a variable, a unary
node's root is the unary operator, a binary node's root is a binary
operator. -/
def wellFormed : Formula → Bool
  | .leaf r => is_constant r || isVarB r
  | .unary r a => is_unary r && wellFormed a
  | .binary r a b => is_binary r && wellFormed a && wellFormed b

/-- Error message `'Unexpected symbol {} in {}'.format(x, y)` from
`Formula._parse_prefix`. -/
def unexpectedSymbol (x y : Str) : Str :=
  "Unexpected symbol ".data ++ x ++ " in ".data ++ y

/-- Error message `'Unexpected input {}'.format(s)` from `Formula._parse_prefix`
and `Formula._parse_prefix_polish`. -/
def unexpectedInput (s : Str) : Str := "Unexpected input ".data ++ s

/-- Embedding of `Formula._parse_prefix` from syntax.py, with explicit fuel:
the Python recursion always re-enters on a strictly shorter string, so any
fuel larger than the input length is enough (see `parsePreF_sound` and
`parsePreF_complete`).  On success the pair holds the parsed formula and the
unparsed suffix; on failure it holds `none` and a human-readable message. -/
def parsePreF : Nat → Str → Option Formula × Str
  | 0, s => (none, s)
  | fuel + 1, s =>
    let tok := (split_str s).1
    let rest := (split_str s).2
    if tok ≠ [] && (is_constant tok || isVarB tok) then
      (some (Formula.leaf tok), rest)
    else if is_unary tok then
      match parsePreF fuel rest with
      | (none, rr) => (none, rr)
      | (some ff, rr) => (some (Formula.unary tok ff), rr)
    else if tok == ['('] then
      match parsePreF fuel rest with
      | (none, rr) => (none, rr)
      | (some ff, rr) =>
        let bop := (split_str rr).1
        let rem := (split_str rr).2
        if is_binary bop then
          match parsePreF fuel rem with
          | (none, tt) => (none, tt)
          | (some ss, tt) =>
            match tt with
            | ')' :: tt1 => (some (Formula.binary bop ff ss), tt1)
            | _ => (none, unexpectedSymbol (tt.take 1) tt)
        else (none, unexpectedSymbol bop rem)
    else (none, unexpectedInput s)

/-- Top-level entry for the infix parser: `Formula._parse_prefix` with enough
fuel for its input. -/
def parsePre (s : Str) : Option Formula × Str := parsePreF (s.length + 1) s

/-- Embedding of `Formula.is_formula` from syntax.py:
`f, r = Formula._parse_prefix(string); return (f is not None) and (r == '')`. -/
def is_formula (s : Str) : Bool := (parsePre s).1.isSome && (parsePre s).2 == []

/-- Embedding of `Formula.parse` from syntax.py: `assert Formula.is_formula(s)`
then return the formula component of `_parse_prefix` (`none` models the
assertion failure on invalid input). -/
def Formula.parse (s : Str) : Option Formula :=
  if is_formula s then (parsePre s).1 else none

/-- Embedding of `Formula.polish` from syntax.py: a constant or variable prints
as its root, a unary node as root followed by the operand's polish form, a
binary node as root followed by both operands' polish forms. -/
def Formula.polish : Formula → Str
  | .leaf r => r
  | .unary r a => r ++ a.polish
  | .binary r a b => r ++ a.polish ++ b.polish

/-- Embedding of `Formula._parse_prefix_polish` from syntax.py, with explicit
fuel exactly as for `parsePreF`. -/
def parsePolishPreF : Nat → Str → Option Formula × Str
  | 0, s => (none, s)
  | fuel + 1, s =>
    let tok := (split_str s).1
    let rest := (split_str s).2
    if tok ≠ [] && (is_constant tok || isVarB tok) then
      (some (Formula.leaf tok), rest)
    else if is_unary tok then
      match parsePolishPreF fuel rest with
      | (none, rr) => (none, rr)
      | (some ff, rr) => (some (Formula.unary tok ff), rr)
    else if is_binary tok then
      match parsePolishPreF fuel rest with
      | (none, rr) => (none, rr)
      | (some ff, rr) =>
        match parsePolishPreF fuel rr with
        | (none, tt) => (none, tt)
        | (some ss, tt) => (some (Formula.binary tok ff ss), tt)
    else (none, unexpectedInput s)

/-- Top-level entry for the Polish prefix parser with enough fuel for its
input. -/
def parsePolishPre (s : Str) : Option Formula × Str :=
  parsePolishPreF (s.length + 1) s

/-- Embedding of `Formula.parse_polish` from syntax.py:
`return Formula._parse_prefix_polish(string)[0]` — no assertion, no check of
the remainder. -/
def Formula.parsePolish (s : Str) : Option Formula := (parsePolishPre s).1

/-- Modelled from the spec: the body of `Formula.substitute_variables` in
syntax.py is an unimplemented exercise (Task 3.3; only its precondition
asserts and docstring are present), so the substitution itself is taken from
the spec's §4.6: every leaf whose token is a variable present as a key of the
map is replaced by the mapped template verbatim (nothing inside the template
is re-substituted), every other node is rebuilt with its children substituted
recursively.  The Python mapping is embedded as an association list. -/
def substituteVariables : Formula → List (Str × Formula) → Formula
  | .leaf r, m =>
    if isVarB r then
      match m.lookup r with
      | some t => t
      | none => Formula.leaf r
    else Formula.leaf r
  | .unary op a, m => Formula.unary op (substituteVariables a m)
  | .binary op a b, m =>
    Formula.binary op (substituteVariables a m) (substituteVariables b m)

/-- Head-of-string test used by the completeness lemmas: the string is empty or
does not start with a decimal digit (so the greedy variable tokenizer cannot
steal characters from it). -/
def headNotDigit : Str → Bool
  | [] => true
  | c :: _ => !c.isDigit

theorem not_digit_of_ge_p (c : Char) (h : 'p' ≤ c) : c.isDigit = false := by
  simp only [Char.isDigit, Bool.and_eq_false_iff, decide_eq_false_iff_not, not_le]
  right
  rw [Char.le_def, UInt32.le_def, BitVec.le_def] at h
  intro hle
  rw [UInt32.le_def, BitVec.le_def] at hle
  have hp : ('p'.val.toBitVec.toNat) = 112 := rfl
  have h57 : ((57 : UInt32).toBitVec.toNat) = 57 := rfl
  omega

theorem ne_dash_of_ge_p (c : Char) (h : 'p' ≤ c) : c ≠ '-' := by
  rintro rfl; exact absurd h (by decide)

theorem takeWhile_eq_nil_of_headNotDigit (t : Str) (h : headNotDigit t = true) :
    t.takeWhile Char.isDigit = [] := by
  cases t with
  | nil => rfl
  | cons c t' =>
    simp only [headNotDigit, Bool.not_eq_true'] at h
    simp [List.takeWhile_cons, h]

theorem split_var_extend_append (tok rest : Str) :
    (split_var_extend tok rest).1 ++ (split_var_extend tok rest).2 = tok ++ rest := by
  unfold split_var_extend
  split
  · simp [List.append_assoc, List.take_append_drop]
  · rfl

theorem split_str_append (s : Str) : (split_str s).1 ++ (split_str s).2 = s := by
  unfold split_str
  split <;> rw [split_var_extend_append] <;> exact List.take_append_drop _ s

theorem split_str_cons_nonvar (c : Char) (t : Str) (hd : c ≠ '-')
    (hv : isVarB [c] = false) : split_str (c :: t) = ([c], t) := by
  unfold split_str
  rw [if_neg (by simp [hd])]
  unfold split_var_extend
  rw [if_neg]
  · simp
  · intro hcon
    rw [isVarB] at hv
    simp only [List.take_succ_cons, List.take_zero] at hcon
    exact absurd hcon.2 (by simp [hv])

theorem split_str_arrow (t : Str) : split_str ('-' :: '>' :: t) = (['-', '>'], t) := by
  unfold split_str
  rw [if_pos (show ('-' :: '>' :: t).head? = some '-' from rfl)]
  simp only [List.take_succ_cons, List.take_zero, List.drop_succ_cons, List.drop_zero]
  unfold split_var_extend
  rw [if_neg]
  intro hcon
  exact absurd hcon.2 (by decide)

theorem split_str_var (c : Char) (ds t : Str) (h1 : 'p' ≤ c) (h2 : c ≤ 'z')
    (hds : ∀ d ∈ ds, d.isDigit = true) (ht : headNotDigit t = true) :
    split_str (c :: (ds ++ t)) = (c :: ds, t) := by
  unfold split_str
  rw [if_neg (by simp [ne_dash_of_ge_p c h1])]
  unfold split_var_extend
  rw [if_pos]
  · have htw : (ds ++ t).takeWhile Char.isDigit = ds := by
      rw [List.takeWhile_append_of_pos hds, takeWhile_eq_nil_of_headNotDigit t ht,
        List.append_nil]
    simp only [List.take_succ_cons, List.take_zero, List.drop_succ_cons,
      List.drop_zero, htw, List.take_left, List.drop_left]
    simp
  · refine ⟨by simp, ?_⟩
    simp [is_variable, h1, h2]

theorem parsePreF_sound (fuel : Nat) :
    ∀ s f r, parsePreF fuel s = (some f, r) → Formula.repr f ++ r = s := by
  induction fuel with
  | zero =>
    intro s f r h
    simp [parsePreF] at h
  | succ n ih =>
    intro s f r h
    have hsp := split_str_append s
    rw [parsePreF] at h
    simp only at h
    split at h
    · -- leaf branch
      rw [Prod.mk.injEq, Option.some.injEq] at h
      obtain ⟨rfl, rfl⟩ := h
      simpa [Formula.repr] using hsp
    · split at h
      · -- unary branch
        split at h
        · simp at h
        · rename_i ff rr heq
          rw [Prod.mk.injEq, Option.some.injEq] at h
          obtain ⟨rfl, rfl⟩ := h
          have ihr := ih _ _ _ heq
          simp only [Formula.repr, List.append_assoc]
          rw [ihr]
          exact hsp
      · split at h
        · -- parenthesis branch
          rename_i hpar
          split at h
          · simp at h
          · rename_i ff rr heq1
            have hsp2 := split_str_append rr
            split at h
            · -- binary operator found
              split at h
              · simp at h
              · rename_i ss tt heq2
                split at h
                · rw [Prod.mk.injEq, Option.some.injEq] at h
                  obtain ⟨rfl, rfl⟩ := h
                  have ih1 := ih _ _ _ heq1
                  have ih2 := ih _ _ _ heq2
                  rw [beq_iff_eq] at hpar
                  simp only [Formula.repr, List.append_assoc, List.singleton_append,
                    List.cons_append, List.nil_append]
                  rw [ih2, hsp2, ih1]
                  rw [hpar] at hsp
                  simpa using hsp
                · simp at h
            · simp at h
        · simp at h

theorem is_constant_eq {r : Str} (h : is_constant r = true) : r = ['T'] ∨ r = ['F'] := by
  simpa [is_constant] using h

theorem is_unary_eq {r : Str} (h : is_unary r = true) : r = ['~'] := by
  simpa [is_unary] using h

theorem is_binary_eq {r : Str} (h : is_binary r = true) :
    r = ['&'] ∨ r = ['|'] ∨ r = ['-', '>'] := by
  have h2 : (r = ['&'] ∨ r = ['|']) ∨ r = ['-', '>'] := by simpa [is_binary] using h
  tauto

theorem isVarB_eq {r : Str} (h : isVarB r = true) :
    ∃ c ds, r = c :: ds ∧ 'p' ≤ c ∧ c ≤ 'z' ∧ ∀ d ∈ ds, d.isDigit = true := by
  cases r with
  | nil => simp [isVarB, is_variable] at h
  | cons c ds =>
    simp only [isVarB, is_variable, Option.getD_some, Bool.and_eq_true,
      decide_eq_true_eq, Bool.or_eq_true, List.isEmpty_eq_true,
      List.all_eq_true] at h
    refine ⟨c, ds, rfl, h.1.1, h.1.2, ?_⟩
    rcases h.2 with rfl | hall
    · intro d hd; simp at hd
    · exact hall

theorem split_str_binary (op Y : Str) (h : is_binary op = true) :
    split_str (op ++ Y) = (op, Y) := by
  rcases is_binary_eq h with rfl | rfl | rfl
  · exact split_str_cons_nonvar '&' Y (by decide) (by decide)
  · exact split_str_cons_nonvar '|' Y (by decide) (by decide)
  · exact split_str_arrow Y

theorem headNotDigit_binary_append (op Y : Str) (h : is_binary op = true) :
    headNotDigit (op ++ Y) = true := by
  rcases is_binary_eq h with rfl | rfl | rfl <;> rfl

theorem repr_length_pos (f : Formula) (h : wellFormed f = true) : 0 < f.repr.length := by
  cases f with
  | leaf r =>
    rw [wellFormed, Bool.or_eq_true] at h
    rcases h with hc | hv
    · rcases is_constant_eq hc with rfl | rfl <;> decide
    · obtain ⟨c, ds, rfl, -, -, -⟩ := isVarB_eq hv
      simp [Formula.repr]
  | unary op a =>
    rw [wellFormed, Bool.and_eq_true] at h
    rw [is_unary_eq h.1]
    simp [Formula.repr]
  | binary op a b => simp [Formula.repr]

theorem parsePreF_complete (f : Formula) :
    ∀ fuel rest, wellFormed f = true → f.repr.length < fuel →
      headNotDigit rest = true →
      parsePreF fuel (f.repr ++ rest) = (some f, rest) := by
  induction f with
  | leaf r =>
    intro fuel rest hwf hlen hrest
    match fuel, hlen with
    | n + 1, hlen =>
    rw [wellFormed, Bool.or_eq_true] at hwf
    rw [parsePreF]
    rcases hwf with hc | hv
    · rcases is_constant_eq hc with rfl | rfl
      · have hs : split_str (Formula.repr (Formula.leaf ['T']) ++ rest) = (['T'], rest) :=
          split_str_cons_nonvar 'T' rest (by decide) (by decide)
        simp [hs, hc]
      · have hs : split_str (Formula.repr (Formula.leaf ['F']) ++ rest) = (['F'], rest) :=
          split_str_cons_nonvar 'F' rest (by decide) (by decide)
        simp [hs, hc]
    · obtain ⟨c, ds, rfl, h1, h2, hds⟩ := isVarB_eq hv
      have hs : split_str (Formula.repr (Formula.leaf (c :: ds)) ++ rest) =
          (c :: ds, rest) := by
        have := split_str_var c ds rest h1 h2 hds hrest
        simpa [Formula.repr] using this
      simp only [hs]
      simp [hv]
  | unary op a iha =>
    intro fuel rest hwf hlen hrest
    match fuel, hlen with
    | n + 1, hlen =>
    rw [wellFormed, Bool.and_eq_true] at hwf
    obtain rfl := is_unary_eq hwf.1
    have hs : split_str (Formula.repr (Formula.unary ['~'] a) ++ rest) =
        (['~'], a.repr ++ rest) := by
      have := split_str_cons_nonvar '~' (a.repr ++ rest) (by decide) (by decide)
      simpa [Formula.repr] using this
    have hrec : parsePreF n (a.repr ++ rest) = (some a, rest) := by
      apply iha n rest hwf.2 _ hrest
      have : (Formula.repr (Formula.unary ['~'] a)).length = 1 + a.repr.length := by
        simp [Formula.repr]; omega
      omega
    rw [parsePreF]
    simp [hs, hrec, (by decide : is_constant ['~'] = false),
      (by decide : isVarB ['~'] = false), (by decide : is_unary ['~'] = true)]
  | binary op a b iha ihb =>
    intro fuel rest hwf hlen hrest
    match fuel, hlen with
    | n + 1, hlen =>
    rw [wellFormed, Bool.and_eq_true, Bool.and_eq_true] at hwf
    obtain ⟨⟨hbin, hwa⟩, hwb⟩ := hwf
    have hM : Formula.repr (Formula.binary op a b) ++ rest =
        '(' :: (a.repr ++ (op ++ (b.repr ++ (')' :: rest)))) := by
      simp [Formula.repr, List.append_assoc]
    have hopl : 0 < op.length := by
      rcases is_binary_eq hbin with rfl | rfl | rfl <;> simp
    have hlen2 : (Formula.repr (Formula.binary op a b)).length =
        2 + a.repr.length + op.length + b.repr.length := by
      simp [Formula.repr]; omega
    have hbpos := repr_length_pos b hwb
    have hapos := repr_length_pos a hwa
    have hs1 : split_str ('(' :: (a.repr ++ (op ++ (b.repr ++ (')' :: rest))))) =
        (['('], a.repr ++ (op ++ (b.repr ++ (')' :: rest)))) :=
      split_str_cons_nonvar '(' _ (by decide) (by decide)
    have hrec1 : parsePreF n (a.repr ++ (op ++ (b.repr ++ (')' :: rest)))) =
        (some a, op ++ (b.repr ++ (')' :: rest))) := by
      apply iha n _ hwa (by omega) (headNotDigit_binary_append op _ hbin)
    have hs2 : split_str (op ++ (b.repr ++ (')' :: rest))) =
        (op, b.repr ++ (')' :: rest)) := split_str_binary op _ hbin
    have hrec2 : parsePreF n (b.repr ++ (')' :: rest)) = (some b, ')' :: rest) := by
      apply ihb n _ hwb (by omega) (by rfl)
    rw [hM, parsePreF]
    simp [hs1, hrec1, hs2, hbin, hrec2, (by decide : is_constant ['('] = false),
      (by decide : isVarB ['('] = false), (by decide : is_unary ['('] = false)]

theorem binary_not_constant {op : Str} (h : is_binary op = true) :
    is_constant op = false := by
  rcases is_binary_eq h with rfl | rfl | rfl <;> decide

theorem binary_not_var {op : Str} (h : is_binary op = true) : isVarB op = false := by
  rcases is_binary_eq h with rfl | rfl | rfl <;> decide

theorem binary_not_unary {op : Str} (h : is_binary op = true) : is_unary op = false := by
  rcases is_binary_eq h with rfl | rfl | rfl <;> decide

theorem headNotDigit_append_of_pos (X Y : Str) (hx : headNotDigit X = true)
    (hpos : 0 < X.length) : headNotDigit (X ++ Y) = true := by
  cases X with
  | nil => simp at hpos
  | cons c t => exact hx

theorem polish_length_pos (f : Formula) (h : wellFormed f = true) :
    0 < f.polish.length := by
  cases f with
  | leaf r =>
    rw [wellFormed, Bool.or_eq_true] at h
    rcases h with hc | hv
    · rcases is_constant_eq hc with rfl | rfl <;> decide
    · obtain ⟨c, ds, rfl, -, -, -⟩ := isVarB_eq hv
      simp [Formula.polish]
  | unary op a =>
    rw [wellFormed, Bool.and_eq_true] at h
    rw [is_unary_eq h.1]
    simp [Formula.polish]
  | binary op a b =>
    rw [wellFormed, Bool.and_eq_true, Bool.and_eq_true] at h
    have : 0 < op.length := by
      rcases is_binary_eq h.1.1 with rfl | rfl | rfl <;> simp
    simp [Formula.polish]
    omega

theorem polish_headNotDigit (f : Formula) (h : wellFormed f = true) :
    headNotDigit f.polish = true := by
  cases f with
  | leaf r =>
    rw [wellFormed, Bool.or_eq_true] at h
    rcases h with hc | hv
    · rcases is_constant_eq hc with rfl | rfl <;> decide
    · obtain ⟨c, ds, rfl, h1, -, -⟩ := isVarB_eq hv
      have := not_digit_of_ge_p c h1
      simp [Formula.polish, headNotDigit, this]
  | unary op a =>
    rw [wellFormed, Bool.and_eq_true] at h
    rw [is_unary_eq h.1]
    rfl
  | binary op a b =>
    rw [wellFormed, Bool.and_eq_true, Bool.and_eq_true] at h
    simp only [Formula.polish, List.append_assoc]
    exact headNotDigit_binary_append op _ h.1.1

theorem parsePolishPreF_sound (fuel : Nat) :
    ∀ s f r, parsePolishPreF fuel s = (some f, r) → Formula.polish f ++ r = s := by
  induction fuel with
  | zero =>
    intro s f r h
    simp [parsePolishPreF] at h
  | succ n ih =>
    intro s f r h
    have hsp := split_str_append s
    rw [parsePolishPreF] at h
    split at h
    · rw [Prod.mk.injEq, Option.some.injEq] at h
      obtain ⟨rfl, rfl⟩ := h
      simpa [Formula.polish] using hsp
    · split at h
      · split at h
        · simp at h
        · rename_i ff rr heq
          rw [Prod.mk.injEq, Option.some.injEq] at h
          obtain ⟨rfl, rfl⟩ := h
          have ihr := ih _ _ _ heq
          simp only [Formula.polish, List.append_assoc]
          rw [ihr]
          exact hsp
      · split at h
        · split at h
          · simp at h
          · rename_i ff rr heq1
            split at h
            · simp at h
            · rename_i ss tt heq2
              rw [Prod.mk.injEq, Option.some.injEq] at h
              obtain ⟨rfl, rfl⟩ := h
              have ih1 := ih _ _ _ heq1
              have ih2 := ih _ _ _ heq2
              simp only [Formula.polish, List.append_assoc]
              rw [ih2, ih1]
              exact hsp
        · simp at h

theorem parsePolishPreF_complete (f : Formula) :
    ∀ fuel rest, wellFormed f = true → f.polish.length < fuel →
      headNotDigit rest = true →
      parsePolishPreF fuel (f.polish ++ rest) = (some f, rest) := by
  induction f with
  | leaf r =>
    intro fuel rest hwf hlen hrest
    match fuel, hlen with
    | n + 1, hlen =>
    rw [wellFormed, Bool.or_eq_true] at hwf
    rw [parsePolishPreF]
    rcases hwf with hc | hv
    · rcases is_constant_eq hc with rfl | rfl
      · have hs : split_str (Formula.polish (Formula.leaf ['T']) ++ rest) = (['T'], rest) :=
          split_str_cons_nonvar 'T' rest (by decide) (by decide)
        simp [hs, hc]
      · have hs : split_str (Formula.polish (Formula.leaf ['F']) ++ rest) = (['F'], rest) :=
          split_str_cons_nonvar 'F' rest (by decide) (by decide)
        simp [hs, hc]
    · obtain ⟨c, ds, rfl, h1, h2, hds⟩ := isVarB_eq hv
      have hs : split_str (Formula.polish (Formula.leaf (c :: ds)) ++ rest) =
          (c :: ds, rest) := by
        have := split_str_var c ds rest h1 h2 hds hrest
        simpa [Formula.polish] using this
      simp only [hs]
      simp [hv]
  | unary op a iha =>
    intro fuel rest hwf hlen hrest
    match fuel, hlen with
    | n + 1, hlen =>
    rw [wellFormed, Bool.and_eq_true] at hwf
    obtain rfl := is_unary_eq hwf.1
    have hs : split_str (Formula.polish (Formula.unary ['~'] a) ++ rest) =
        (['~'], a.polish ++ rest) := by
      have := split_str_cons_nonvar '~' (a.polish ++ rest) (by decide) (by decide)
      simpa [Formula.polish] using this
    have hrec : parsePolishPreF n (a.polish ++ rest) = (some a, rest) := by
      apply iha n rest hwf.2 _ hrest
      have : (Formula.polish (Formula.unary ['~'] a)).length = 1 + a.polish.length := by
        simp [Formula.polish]; omega
      omega
    rw [parsePolishPreF]
    simp [hs, hrec, (by decide : is_constant ['~'] = false),
      (by decide : isVarB ['~'] = false), (by decide : is_unary ['~'] = true)]
  | binary op a b iha ihb =>
    intro fuel rest hwf hlen hrest
    match fuel, hlen with
    | n + 1, hlen =>
    rw [wellFormed, Bool.and_eq_true, Bool.and_eq_true] at hwf
    obtain ⟨⟨hbin, hwa⟩, hwb⟩ := hwf
    have hM : Formula.polish (Formula.binary op a b) ++ rest =
        op ++ (a.polish ++ (b.polish ++ rest)) := by
      simp [Formula.polish, List.append_assoc]
    have hopl : 0 < op.length := by
      rcases is_binary_eq hbin with rfl | rfl | rfl <;> simp
    have hlen2 : (Formula.polish (Formula.binary op a b)).length =
        op.length + a.polish.length + b.polish.length := by
      simp [Formula.polish]; omega
    have hbpos := polish_length_pos b hwb
    have hapos := polish_length_pos a hwa
    have hs1 : split_str (op ++ (a.polish ++ (b.polish ++ rest))) =
        (op, a.polish ++ (b.polish ++ rest)) := split_str_binary op _ hbin
    have hrest2 : headNotDigit (b.polish ++ rest) = true :=
      headNotDigit_append_of_pos _ _ (polish_headNotDigit b hwb) hbpos
    have hrec1 : parsePolishPreF n (a.polish ++ (b.polish ++ rest)) =
        (some a, b.polish ++ rest) := by
      apply iha n _ hwa (by omega) hrest2
    have hrec2 : parsePolishPreF n (b.polish ++ rest) = (some b, rest) := by
      apply ihb n _ hwb (by omega) hrest
    rw [hM, parsePolishPreF]
    simp [hs1, hrec1, hrec2, hbin, binary_not_constant hbin, binary_not_var hbin,
      binary_not_unary hbin]

theorem var_not_unary {r : Str} (h : isVarB r = true) : is_unary r = false := by
  obtain ⟨c, ds, rfl, h1, h2, -⟩ := isVarB_eq h
  by_contra hne
  rw [Bool.not_eq_false] at hne
  have heq := is_unary_eq hne
  injection heq with hc hds
  subst hc
  exact absurd h2 (by decide)

theorem var_not_binary {r : Str} (h : isVarB r = true) : is_binary r = false := by
  obtain ⟨c, ds, rfl, h1, h2, -⟩ := isVarB_eq h
  by_contra hne
  rw [Bool.not_eq_false] at hne
  rcases is_binary_eq hne with heq | heq | heq <;> injection heq with hc hds <;> subst hc
  · exact absurd h1 (by decide)
  · exact absurd h2 (by decide)
  · exact absurd h1 (by decide)

theorem constant_not_unary {r : Str} (h : is_constant r = true) : is_unary r = false := by
  rcases is_constant_eq h with rfl | rfl <;> decide

theorem constant_not_binary {r : Str} (h : is_constant r = true) :
    is_binary r = false := by
  rcases is_constant_eq h with rfl | rfl <;> decide

theorem unary_not_binary {r : Str} (h : is_unary r = true) : is_binary r = false := by
  rw [is_unary_eq h]; decide

/-- C4: `Formula.__init__` fails (an `AssertionError`, or the `IndexError` from
classifying an empty root — in both cases a construction-time failure, never a
malformed tree) exactly when the supplied operands are inconsistent with the
arity class of the root token: it succeeds iff the root is a constant or
variable with both operands absent, or a unary operator with exactly the first
operand, or a binary operator with both operands; any other combination —
including a root belonging to no recognized token class — fails. -/
theorem mkFormula_arity (root : Str) (first second : Option Formula) :
    (mkFormula root first second).isSome =
      (((is_constant root || isVarB root) && first.isNone && second.isNone) ||
       (is_unary root && first.isSome && second.isNone) ||
       (is_binary root && first.isSome && second.isSome)) := by
  unfold mkFormula
  cases hv : is_variable root with
  | none =>
    have hroot : root = [] := by
      cases root with
      | nil => rfl
      | cons c ds => simp [is_variable] at hv
    subst hroot
    cases first <;> cases second <;> rfl
  | some vb =>
    have hvb : isVarB root = vb := by rw [isVarB, hv]; rfl
    split
    · rename_i heq
      simp at heq
    · rename_i vb2 heq
      obtain rfl : vb = vb2 := by injection heq
      split
      · rename_i hcond
        rw [Bool.or_eq_true] at hcond
        have hvc : isVarB root = true ∨ is_constant root = true := by
          rcases hcond with h1 | h1
          · exact Or.inl (by rw [hvb, h1])
          · exact Or.inr h1
        have hu : is_unary root = false := by
          rcases hvc with h1 | h1
          · exact var_not_unary h1
          · exact constant_not_unary h1
        have hb : is_binary root = false := by
          rcases hvc with h1 | h1
          · exact var_not_binary h1
          · exact constant_not_binary h1
        have hcv : (is_constant root || isVarB root) = true := by
          rcases hvc with h1 | h1 <;> simp [h1]
        cases first <;> cases second <;> simp [hu, hb, hcv]
      · rename_i hcond
        rw [Bool.or_eq_true] at hcond
        push_neg at hcond
        obtain ⟨hv1, hc1⟩ := hcond
        have hvf : vb = false := by
          cases vb with
          | false => rfl
          | true => exact absurd rfl hv1
        have hv2 : isVarB root = false := by rw [hvb, hvf]
        have hc2 : is_constant root = false := by
          cases hcc : is_constant root with
          | false => rfl
          | true => exact absurd hcc hc1
        split
        · rename_i hu
          have hb : is_binary root = false := unary_not_binary hu
          cases first <;> cases second <;> simp [hu, hb, hv2, hc2]
        · rename_i hu1
          have hu : is_unary root = false := by
            cases huu : is_unary root with
            | false => rfl
            | true => exact absurd huu hu1
          split
          · rename_i hb
            cases first <;> cases second <;> simp [hu, hb, hv2, hc2]
          · rename_i hb1
            have hb : is_binary root = false := by
              cases hbb : is_binary root with
              | false => rfl
              | true => exact absurd hbb hb1
            cases first <;> cases second <;> simp [hu, hb, hv2, hc2]

theorem headNotDigit_dropWhile (t : Str) :
    headNotDigit (t.dropWhile Char.isDigit) = true := by
  induction t with
  | nil => rfl
  | cons c t' ih =>
    rw [List.dropWhile_cons]
    split
    · exact ih
    · rename_i hc
      simp only [headNotDigit, Bool.not_eq_true'] at hc ⊢
      simpa using hc

/-- C1: for every string `s` accepted by `Formula.is_formula`, `Formula.parse`
returns a formula whose string serialization is exactly `s` (parse-then-print
round-trip on every syntactically valid infix string). -/
theorem parse_repr_roundtrip (s : Str) (h : is_formula s = true) :
    (Formula.parse s).map Formula.repr = some s := by
  rw [Formula.parse, if_pos h]
  rw [is_formula, Bool.and_eq_true] at h
  rcases hp : parsePre s with ⟨of, r⟩
  rw [hp] at h
  obtain ⟨h1, h2⟩ := h
  cases of with
  | none => simp at h1
  | some f =>
    have hr : r = [] := by simpa using h2
    subst hr
    have hs := parsePreF_sound (s.length + 1) s f [] hp
    rw [List.append_nil] at hs
    simp [hs]

/-- Witness for C1 at the concrete valid string `"(p&q)"`. -/
theorem parse_repr_roundtrip_witness :
    is_formula "(p&q)".data = true ∧
      (Formula.parse "(p&q)".data).map Formula.repr = some "(p&q)".data :=
  ⟨rfl, parse_repr_roundtrip "(p&q)".data rfl⟩

/-- C2: `is_formula` holds exactly when the prefix parse succeeds with an empty
remainder, and in particular rejects `"p)"`, accepts `"(p&q)"`, and rejects
`"(p&q)extra"` (trailing unconsumed text invalidates the whole string). -/
theorem is_formula_spec :
    (∀ s : Str, is_formula s = true ↔ ∃ f, parsePre s = (some f, [])) ∧
    is_formula "p)".data = false ∧
    is_formula "(p&q)".data = true ∧
    is_formula "(p&q)extra".data = false := by
  refine ⟨fun s => ?_, rfl, rfl, rfl⟩
  rw [is_formula, Bool.and_eq_true]
  rcases hp : parsePre s with ⟨of, r⟩
  cases of with
  | none => simp
  | some f =>
    simp only [Option.isSome_some, true_and, beq_iff_eq, Prod.mk.injEq,
      Option.some.injEq]
    constructor
    · rintro rfl
      exact ⟨f, rfl, rfl⟩
    · rintro ⟨g, -, hr⟩
      exact hr

/-- C3: `Formula.__eq__` holds exactly when the two canonical serializations
are equal, and equal formulas have equal hashes (so two independently parsed
trees of the same expression compare equal and hash identically). -/
theorem formulaEq_repr_hash :
    (∀ f g : Formula, formulaEq f g = true ↔ Formula.repr f = Formula.repr g) ∧
    (∀ f g : Formula, formulaEq f g = true → formulaHash f = formulaHash g) := by
  constructor
  · intro f g
    rw [formulaEq, beq_iff_eq]
  · intro f g h
    rw [formulaEq, beq_iff_eq] at h
    rw [formulaHash, formulaHash, h]

/-- Witness for C3 at two structurally built copies of `(p&q)`. -/
theorem formulaEq_repr_hash_witness :
    formulaEq (Formula.binary ['&'] (Formula.leaf ['p']) (Formula.leaf ['q']))
        (Formula.binary ['&'] (Formula.leaf ['p']) (Formula.leaf ['q'])) = true ∧
      formulaHash (Formula.binary ['&'] (Formula.leaf ['p']) (Formula.leaf ['q'])) =
        formulaHash (Formula.binary ['&'] (Formula.leaf ['p']) (Formula.leaf ['q'])) :=
  ⟨rfl, formulaEq_repr_hash.2 _ _ rfl⟩

/-- C5: the tokenizer extracts the single longest valid leading token: an input
beginning with `"->"` yields the two-character token `"->"` (never `"-"`
alone), an input beginning with a letter in `p..z` yields that letter extended
by the maximal run of following decimal digits, and the empty input yields two
empty strings. -/
theorem split_str_tokens :
    (∀ s : Str, split_str ('-' :: '>' :: s) = (['-', '>'], s)) ∧
    (∀ (c : Char) (t : Str), 'p' ≤ c → c ≤ 'z' →
      split_str (c :: t) =
        (c :: t.takeWhile Char.isDigit, t.dropWhile Char.isDigit)) ∧
    split_str [] = ([], []) := by
  refine ⟨split_str_arrow, fun c t h1 h2 => ?_, rfl⟩
  conv_lhs =>
    rw [show t = t.takeWhile Char.isDigit ++ t.dropWhile Char.isDigit from
      (List.takeWhile_append_dropWhile Char.isDigit t).symm]
  exact split_str_var c _ _ h1 h2 (fun d hd => List.mem_takeWhile_imp hd)
    (headNotDigit_dropWhile t)

/-- Witness for C5: `split_str "->p"` takes the arrow whole, and
`split_str "x12a"` takes the whole variable name `x12`. -/
theorem split_str_tokens_witness :
    split_str ('-' :: '>' :: ['p']) = (['-', '>'], ['p']) ∧
      (('p' ≤ 'x' ∧ 'x' ≤ 'z') ∧
        split_str ('x' :: "12a".data) = ('x' :: "12".data, "a".data)) :=
  ⟨split_str_tokens.1 ['p'],
    ⟨⟨by decide, by decide⟩, split_str_tokens.2.1 'x' "12a".data (by decide) (by decide)⟩⟩

/-- C6: for every well-formed formula (the invariant `Formula.__init__`
enforces on every constructible value), parsing the formula's Polish form with
`parse_polish` succeeds and returns a formula with the same canonical string
serialization (Polish print-then-parse round-trip). -/
theorem parsePolish_polish_roundtrip (f : Formula) (h : wellFormed f = true) :
    (Formula.parsePolish (Formula.polish f)).map Formula.repr =
      some (Formula.repr f) := by
  have hc := parsePolishPreF_complete f (f.polish.length + 1) [] h (by omega) rfl
  rw [List.append_nil] at hc
  rw [Formula.parsePolish, parsePolishPre, hc]
  rfl

/-- Witness for C6 at the concrete formula `(p->q)`. -/
theorem parsePolish_polish_roundtrip_witness :
    wellFormed (Formula.binary ['-', '>'] (Formula.leaf ['p'])
        (Formula.leaf ['q'])) = true ∧
      (Formula.parsePolish (Formula.polish (Formula.binary ['-', '>']
          (Formula.leaf ['p']) (Formula.leaf ['q'])))).map Formula.repr =
        some (Formula.repr (Formula.binary ['-', '>'] (Formula.leaf ['p'])
          (Formula.leaf ['q']))) :=
  ⟨rfl, parsePolish_polish_roundtrip _ rfl⟩

/-- C7 counterexample: the string `"pq"` is not a complete valid Polish
representation (the prefix parse leaves the unconsumed remainder `"q"`), yet
`parse_polish` silently returns the formula `p` instead of failing — there is
no validation of the input nor of the remainder, contrary to the claim. -/
theorem parsePolish_no_validation_cex :
    Formula.parsePolish "pq".data = some (Formula.leaf ['p']) ∧
      (parsePolishPre "pq".data).2 = ['q'] := ⟨rfl, rfl⟩

/-- C7 amended: `parse_polish` performs no top-level validation at all: there
is no `is_formula_polish` validator in the code, and `parse_polish` simply
returns the formula component of the Polish prefix parse — whenever that parse
succeeds, the result is returned even if a non-empty remainder is left over
(the formula then covers only a proper prefix of the input), and `None` (not
an assertion failure) results only when no prefix parses. -/
theorem parsePolish_returns_prefix_parse (s : Str) (f : Formula) (r : Str)
    (h : parsePolishPre s = (some f, r)) :
    Formula.parsePolish s = some f ∧ Formula.polish f ++ r = s := by
  constructor
  · rw [Formula.parsePolish, h]
  · exact parsePolishPreF_sound _ _ _ _ h

/-- Witness for C7's amended theorem at the input `"pq"` with leftover `"q"`. -/
theorem parsePolish_returns_prefix_parse_witness :
    parsePolishPre "pq".data = (some (Formula.leaf ['p']), ['q']) ∧
      (Formula.parsePolish "pq".data = some (Formula.leaf ['p']) ∧
        Formula.polish (Formula.leaf ['p']) ++ ['q'] = "pq".data) :=
  ⟨rfl, parsePolish_returns_prefix_parse "pq".data (Formula.leaf ['p']) ['q'] rfl⟩

/-- C8: variable substitution is single-pass and non-recursive on replacement
content: substituting `p ↦ (q&r)` and `r ↦ p` in `(p|r)` gives exactly
`((q&r)|p)` — the `r` introduced by substituting `p` is not itself
re-substituted. -/
theorem substituteVariables_example :
    (match Formula.parse "(p|r)".data, Formula.parse "(q&r)".data,
        Formula.parse "p".data with
      | some f, some t1, some t2 =>
        some (Formula.repr (substituteVariables f [(['p'], t1), (['r'], t2)]))
      | _, _, _ => none) = some "((q&r)|p)".data := rfl

/-- C9 counterexample: `is_variable` applied to the empty string does not
return a boolean: the Python body evaluates `string[0]`, which raises
`IndexError` on `""` (`none` in this embedding), so the four classifiers are
not all total over arbitrary strings. -/
theorem is_variable_empty_fails : is_variable [] = none := rfl

/-- C9 amended: `is_constant`, `is_unary` and `is_binary` are total over
arbitrary strings (they are embedded as Bool-valued functions, as their Python
bodies are plain comparisons), while `is_variable` returns a boolean exactly
on the non-empty strings, raising `IndexError` on the empty string. -/
theorem is_variable_total_iff_nonempty (s : Str) :
    (is_variable s).isSome ↔ s ≠ [] := by
  cases s <;> simp [is_variable]

/-- C10: the serializer emits only strings the infix parser accepts: for every
well-formed formula `f` (the invariant `Formula.__init__` enforces on every
constructible value), `is_formula` holds of `f`'s serialization — the converse
direction of the parse-then-print round-trip. -/
theorem repr_is_formula (f : Formula) (h : wellFormed f = true) :
    is_formula (Formula.repr f) = true := by
  have hc := parsePreF_complete f (f.repr.length + 1) [] h (by omega) rfl
  rw [List.append_nil] at hc
  rw [is_formula, parsePre, hc]
  rfl

/-- Witness for C10 at the concrete formula `~(p&x12)`. -/
theorem repr_is_formula_witness :
    wellFormed (Formula.unary ['~'] (Formula.binary ['&'] (Formula.leaf ['p'])
        (Formula.leaf ['x', '1', '2']))) = true ∧
      is_formula (Formula.repr (Formula.unary ['~'] (Formula.binary ['&']
        (Formula.leaf ['p']) (Formula.leaf ['x', '1', '2'])))) = true :=
  ⟨rfl, repr_is_formula _ rfl⟩
